import Mathlib

/-!
A shallow embedding of the `lookahead` crate (`src/lib.rs`): an adapter that
wraps a fused iterator and buffers pre-fetched items in a `VecDeque`, allowing
the caller to peek arbitrarily far ahead without consuming items.

Modelling conventions:
* A Rust iterator is a state type `σ` together with a step function
  (`Iterator::next`, `none` = no item) and a `size_hint` function.
* `Fuse<I>` is modelled by the state `Option σ`: `none` once the wrapped
  iterator has reported exhaustion.  This captures Rust's fused guarantee
  (sticky exhaustion) even for ill-behaved inner iterators.
* `VecDeque<T>` is modelled by its contents, a `List` whose head is the
  deque's front; the deque's capacity is storage reservation only and is
  recorded as an inert field `cap` that no operation reads, so that its
  behavioural inertness can be stated.
* `usize` arithmetic is idealized to `Nat` in the main definitions; the
  overflow behaviour of the expression `n - enqueued + 1` is modelled
  separately by `Lookahead.lookaheadChecked` (overflow-checked, debug
  profile) and `Lookahead.lookaheadWrap` (wrapping, release profile).
-/

/-- A Rust external iterator over items of type `α`: a state `σ`, the step
function `next` (`none` = exhausted) and `size_hint`. -/
structure Iterator (σ α : Type) where
  next : σ → Option (α × σ)
  size_hint : σ → Nat × Option Nat

/-- `Fuse::next`: one step of the fused iterator.  State `none` means the
inner iterator has already reported exhaustion; then `none` is returned
without consulting the inner iterator.  Otherwise the inner iterator is
stepped once, and on exhaustion the state moves to `none` permanently.
Returns (output, new fused state). -/
def fuseNext (it : Iterator σ α) : Option σ → Option α × Option σ
  | none => (none, none)
  | some s =>
    match it.next s with
    | none => (none, none)
    | some (a, s') => (some a, some s')

/-- `Fuse::size_hint`: `(0, some 0)` once exhausted, the inner iterator's
hint otherwise. -/
def fuseSizeHint (it : Iterator σ α) : Option σ → Nat × Option Nat
  | none => (0, some 0)
  | some s => it.size_hint s

/-- The `Lookahead` struct: the fused source (`iter: Fuse<I>`), the staging
buffer (`queue: VecDeque<I::Item>`, head = front), and the buffer's inert
storage capacity. -/
structure Lookahead (σ α : Type) where
  iter : Option σ
  queue : List α
  cap : Nat
  deriving DecidableEq, Repr

/-- The free function `lookahead(iterable)`: fuses the iterable's iterator
(`IntoIterator::into_iter` is the identity in this model: the iterable is
its iterator state `s`) and starts with an empty buffer
(`VecDeque::new()`). -/
def lookahead (_it : Iterator σ α) (s : σ) : Lookahead σ α :=
  ⟨some s, [], 0⟩

/-- `Lookahead::new(iterable)`: same construction as the free function. -/
def Lookahead.new (_it : Iterator σ α) (s : σ) : Lookahead σ α :=
  ⟨some s, [], 0⟩

/-- `Lookahead::with_capacity(iterable, capacity)`: same, but the buffer's
storage is pre-reserved (`VecDeque::with_capacity(capacity)`); the contents
of the buffer are still empty. -/
def Lookahead.with_capacity (_it : Iterator σ α) (s : σ) (capacity : Nat) :
    Lookahead σ α :=
  ⟨some s, [], capacity⟩

/-- `self.iter.take(k)` drained by `self.queue.extend(..)`: pull up to `k`
items from the fused iterator.  Returns (items obtained, in order; fused
state afterwards; number of calls made to the wrapped inner iterator).
`Take` stops asking once its quota is reached, and `extend` stops at the
first `none`; a `none` from the fuse when the inner iterator is still live
costs one inner call and moves the fuse to `none` for good. -/
def pullN (it : Iterator σ α) : Nat → Option σ → List α × Option σ × Nat
  | 0, is => ([], is, 0)
  | _ + 1, none => ([], none, 0)
  | k + 1, some s =>
    match it.next s with
    | none => ([], none, 1)
    | some (a, s') =>
      let r := pullN it k (some s')
      (a :: r.1, r.2.1, r.2.2 + 1)

/-- `Lookahead::lookahead(n)` (idealized `Nat` arithmetic):
```
let enqueued = self.queue.len();
if n >= enqueued {
    let iter = &mut self.iter;
    let items = iter.take(n - enqueued + 1);
    self.queue.extend(items);
}
self.queue.get(n)
```
Returns (the peeked value, the updated adapter). -/
def Lookahead.lookahead (it : Iterator σ α) (L : Lookahead σ α) (n : Nat) :
    Option α × Lookahead σ α :=
  let enqueued := L.queue.length
  if enqueued ≤ n then
    let r := pullN it (n - enqueued + 1) L.iter
    ((L.queue ++ r.1)[n]?, ⟨r.2.1, L.queue ++ r.1, L.cap⟩)
  else
    (L.queue[n]?, L)

/-- `<Lookahead as Iterator>::next`:
`self.queue.pop_front().or_else(|| self.iter.next())`. -/
def Lookahead.next (it : Iterator σ α) : Lookahead σ α → Option α × Lookahead σ α
  | ⟨is, [], c⟩ => ((fuseNext it is).1, ⟨(fuseNext it is).2, [], c⟩)
  | ⟨is, x :: xs, c⟩ => (some x, ⟨is, xs, c⟩)

/-- `<Lookahead as Iterator>::size_hint`:
```
let queued = self.queue.len();
let (lower, upper) = self.iter.size_hint();
(lower + queued, upper.map(|n| n + queued))
``` -/
def Lookahead.size_hint (it : Iterator σ α) (L : Lookahead σ α) :
    Nat × Option Nat :=
  let queued := L.queue.length
  let lu := fuseSizeHint it L.iter
  (lu.1 + queued, lu.2.map (fun m => m + queued))

/-- Number of inner-iterator calls a `lookahead(n)` call makes (0 when the
buffer already covers position `n`). -/
def lookaheadPulls (it : Iterator σ α) (L : Lookahead σ α) (n : Nat) : Nat :=
  if L.queue.length ≤ n then (pullN it (n - L.queue.length + 1) L.iter).2.2
  else 0

/-- Number of inner-iterator calls a `next` call makes: one exactly when the
buffer is empty and the fuse is still live, zero otherwise. -/
def nextPulls (L : Lookahead σ α) : Nat :=
  match L.queue, L.iter with
  | [], some _ => 1
  | _, _ => 0

/-- The adapter has reached the end of the sequence: the buffer is empty and
the (fused) source is exhausted, i.e. its next pull yields nothing. -/
def Exhausted (it : Iterator σ α) (L : Lookahead σ α) : Prop :=
  L.queue = [] ∧ (fuseNext it L.iter).1 = none

instance (it : Iterator σ α) (L : Lookahead σ α) [DecidableEq α] :
    Decidable (Exhausted it L) := by
  unfold Exhausted
  infer_instance

/-- An operation performed on the adapter by a caller. -/
inductive Op where
  | consume
  | peek (n : Nat)
  deriving DecidableEq, Repr

/-- Run a sequence of operations, collecting only the outputs of the
`consume` (`next`) operations, in order. -/
def runConsumes (it : Iterator σ α) : List Op → Lookahead σ α → List (Option α)
  | [], _ => []
  | Op.consume :: ops, L =>
    (Lookahead.next it L).1 :: runConsumes it ops (Lookahead.next it L).2
  | Op.peek n :: ops, L => runConsumes it ops (Lookahead.lookahead it L n).2

/-- Number of `consume` operations in a sequence. -/
def countConsumes : List Op → Nat
  | [] => 0
  | Op.consume :: ops => countConsumes ops + 1
  | Op.peek _ :: ops => countConsumes ops

/-- Run a sequence of operations, collecting every operation's output. -/
def runAll (it : Iterator σ α) : List Op → Lookahead σ α → List (Option α)
  | [], _ => []
  | Op.consume :: ops, L =>
    (Lookahead.next it L).1 :: runAll it ops (Lookahead.next it L).2
  | Op.peek n :: ops, L =>
    (Lookahead.lookahead it L n).1 :: runAll it ops (Lookahead.lookahead it L n).2

/-- Run a sequence of operations, returning the final adapter state. -/
def runState (it : Iterator σ α) : List Op → Lookahead σ α → Lookahead σ α
  | [], L => L
  | Op.consume :: ops, L => runState it ops (Lookahead.next it L).2
  | Op.peek n :: ops, L => runState it ops (Lookahead.lookahead it L n).2

/-- Outputs of `k` successive `next` calls on the fused source alone. -/
def sourceOutN (it : Iterator σ α) : Nat → Option σ → List (Option α)
  | 0, _ => []
  | k + 1, is => (fuseNext it is).1 :: sourceOutN it k (fuseNext it is).2

/-- Output of the `(n+1)`-th `next` call on the adapter (so `nthNext it 0 L`
is what the very next `next` call returns). -/
def nthNext (it : Iterator σ α) : Nat → Lookahead σ α → Option α
  | 0, L => (Lookahead.next it L).1
  | n + 1, L => nthNext it n (Lookahead.next it L).2

/-- The fused source's state after `j` fused steps. -/
def advanceN (it : Iterator σ α) : Nat → Option σ → Option σ
  | 0, is => is
  | j + 1, is => advanceN it j (fuseNext it is).2

/-- Output of the `(j+1)`-th `next` call on the fused source alone. -/
def srcNth (it : Iterator σ α) (j : Nat) (is : Option σ) : Option α :=
  (fuseNext it (advanceN it j is)).1

/-- Outputs of `k` successive `next` calls on the adapter. -/
def outsN (it : Iterator σ α) : Nat → Lookahead σ α → List (Option α)
  | 0, _ => []
  | k + 1, L => (Lookahead.next it L).1 :: outsN it k (Lookahead.next it L).2

/-- Run a sequence of `lookahead` calls (no intervening `next`), returning
the final state and the total number of inner-iterator calls made. -/
def peeks (it : Iterator σ α) : List Nat → Lookahead σ α → Lookahead σ α × Nat
  | [], L => (L, 0)
  | n :: ns, L =>
    let r := peeks it ns (Lookahead.lookahead it L n).2
    (r.1, lookaheadPulls it L n + r.2)

/-- Number of buffer positions a sequence of peeks touches: positions
`0 .. n` for each `lookahead(n)`, i.e. `max (n+1)` over the calls. -/
def maxPeek : List Nat → Nat
  | [] => 0
  | n :: ns => max (n + 1) (maxPeek ns)

/-- The number of remaining items of a fused source, given an exact length
function for the inner iterator's states. -/
def optLen (len : σ → Nat) : Option σ → Nat
  | none => 0
  | some s => len s

/-- `usize::MAX` (64-bit). -/
def USIZE_MAX : Nat := 2 ^ 64 - 1

/-- `Lookahead::lookahead(n)` with overflow-checked `usize` arithmetic (the
debug profile): `none` models the arithmetic-overflow panic of
`n - enqueued + 1` when `n = usize::MAX` and the buffer is empty. -/
def Lookahead.lookaheadChecked (it : Iterator σ α) (L : Lookahead σ α)
    (n : Nat) : Option (Option α × Lookahead σ α) :=
  let enqueued := L.queue.length
  if enqueued ≤ n then
    if USIZE_MAX < n - enqueued + 1 then none
    else
      let r := pullN it (n - enqueued + 1) L.iter
      some ((L.queue ++ r.1)[n]?, ⟨r.2.1, L.queue ++ r.1, L.cap⟩)
  else some (L.queue[n]?, L)

/-- `Lookahead::lookahead(n)` with wrapping `usize` arithmetic (the release
profile): `n - enqueued + 1` is reduced modulo `2^64`. -/
def Lookahead.lookaheadWrap (it : Iterator σ α) (L : Lookahead σ α)
    (n : Nat) : Option α × Lookahead σ α :=
  let enqueued := L.queue.length
  if enqueued ≤ n then
    let r := pullN it ((n - enqueued + 1) % (USIZE_MAX + 1)) L.iter
    ((L.queue ++ r.1)[n]?, ⟨r.2.1, L.queue ++ r.1, L.cap⟩)
  else
    (L.queue[n]?, L)

/-- A concrete honest iterator over a list of naturals, used to instantiate
theorems with hypotheses at concrete inputs. -/
def listIt : Iterator (List Nat) Nat where
  next := fun l =>
    match l with
    | [] => none
    | a :: l => some (a, l)
  size_hint := fun l => (l.length, some l.length)

/-! ### Basic lemmas about the fused source -/

theorem fuseNext_fst_none {it : Iterator σ α} {is : Option σ}
    (h : (fuseNext it is).1 = none) : fuseNext it is = (none, none) := by
  cases is with
  | none => rfl
  | some s =>
    simp only [fuseNext] at h ⊢
    cases hs : it.next s with
    | none => rfl
    | some p => rw [hs] at h; simp at h

theorem sourceOutN_none (it : Iterator σ α) (j : Nat) :
    sourceOutN it j (none : Option σ) = List.replicate j none := by
  induction j with
  | zero => rfl
  | succ j ih => simp [sourceOutN, fuseNext, ih, List.replicate]

theorem sourceOutN_dead {it : Iterator σ α} {is : Option σ}
    (h : (fuseNext it is).1 = none) (j : Nat) :
    sourceOutN it j is = List.replicate j none := by
  cases j with
  | zero => rfl
  | succ j =>
    have h2 := fuseNext_fst_none h
    simp [sourceOutN, h2, sourceOutN_none, List.replicate]

theorem advanceN_none (it : Iterator σ α) (j : Nat) :
    advanceN it j (none : Option σ) = none := by
  induction j with
  | zero => rfl
  | succ j ih => simp [advanceN, fuseNext, ih]

theorem srcNth_dead {it : Iterator σ α} {is : Option σ}
    (h : (fuseNext it is).1 = none) (j : Nat) : srcNth it j is = none := by
  cases j with
  | zero => exact h
  | succ j =>
    have h2 := fuseNext_fst_none h
    simp [srcNth, advanceN, h2, advanceN_none]
    simp [fuseNext]

theorem srcNth_none (it : Iterator σ α) (j : Nat) :
    srcNth it j (none : Option σ) = none :=
  srcNth_dead (by simp [fuseNext]) j

/-! ### Lemmas about `pullN` -/

theorem pullN_none (it : Iterator σ α) (k : Nat) :
    pullN it k (none : Option σ) = ([], none, 0) := by
  cases k <;> rfl

theorem pullN_stream (it : Iterator σ α) (k : Nat) (is : Option σ) (j : Nat) :
    sourceOutN it ((pullN it k is).1.length + j) is
      = (pullN it k is).1.map some ++ sourceOutN it j (pullN it k is).2.1 := by
  induction k generalizing is j with
  | zero => simp [pullN]
  | succ k ih =>
    cases is with
    | none => simp [pullN]
    | some s =>
      cases hs : it.next s with
      | none =>
        have hd : (fuseNext it (some s)).1 = none := by simp [fuseNext, hs]
        simp [pullN, hs]
        rw [sourceOutN_dead hd, sourceOutN_none]
      | some p =>
        obtain ⟨a, s'⟩ := p
        simp only [pullN, hs, List.length_cons, List.map_cons]
        have harith : (pullN it k (some s')).1.length + 1 + j
            = ((pullN it k (some s')).1.length + j) + 1 := by omega
        rw [harith]
        have hstep : ∀ m, sourceOutN it (m + 1) (some s)
            = some a :: sourceOutN it m (some s') := by
          intro m
          have hf : fuseNext it (some s) = (some a, some s') := by
            simp [fuseNext, hs]
          simp [sourceOutN, hf]
        rw [hstep]
        rw [ih]
        simp

theorem pullN_length_le (it : Iterator σ α) (k : Nat) (is : Option σ) :
    (pullN it k is).1.length ≤ k := by
  induction k generalizing is with
  | zero => simp [pullN]
  | succ k ih =>
    cases is with
    | none => simp [pullN]
    | some s =>
      cases hs : it.next s with
      | none => simp [pullN, hs]
      | some p =>
        obtain ⟨a, s'⟩ := p
        simp only [pullN, hs, List.length_cons]
        exact Nat.succ_le_succ (ih (some s'))

theorem pullN_length_cases (it : Iterator σ α) (k : Nat) (is : Option σ) :
    (pullN it k is).1.length = k ∨
      ((pullN it k is).1.length < k ∧ (pullN it k is).2.1 = none) := by
  induction k generalizing is with
  | zero => left; rfl
  | succ k ih =>
    cases is with
    | none => right; simp [pullN]
    | some s =>
      cases hs : it.next s with
      | none => right; simp [pullN, hs]
      | some p =>
        obtain ⟨a, s'⟩ := p
        simp only [pullN, hs, List.length_cons]
        rcases ih (some s') with h | ⟨h1, h2⟩
        · left; omega
        · right; exact ⟨by omega, h2⟩

theorem pullN_calls_le (it : Iterator σ α) (k : Nat) (is : Option σ) :
    (pullN it k is).2.2 ≤ k := by
  induction k generalizing is with
  | zero => simp [pullN]
  | succ k ih =>
    cases is with
    | none => simp [pullN]
    | some s =>
      cases hs : it.next s with
      | none => simp [pullN, hs]
      | some p =>
        obtain ⟨a, s'⟩ := p
        simp only [pullN, hs]
        exact Nat.succ_le_succ (ih (some s'))

theorem pullN_calls_le_len (it : Iterator σ α) (k : Nat) (is : Option σ) :
    (pullN it k is).2.2 ≤ (pullN it k is).1.length + 1 := by
  induction k generalizing is with
  | zero => simp [pullN]
  | succ k ih =>
    cases is with
    | none => simp [pullN]
    | some s =>
      cases hs : it.next s with
      | none => simp [pullN, hs]
      | some p =>
        obtain ⟨a, s'⟩ := p
        simp only [pullN, hs, List.length_cons]
        exact Nat.succ_le_succ (ih (some s'))

theorem pullN_get (it : Iterator σ α) (k : Nat) (is : Option σ) (j : Nat)
    (hj : j < k) : (pullN it k is).1[j]? = srcNth it j is := by
  induction k generalizing is j with
  | zero => omega
  | succ k ih =>
    cases is with
    | none => simp [pullN, srcNth_none]
    | some s =>
      cases hs : it.next s with
      | none =>
        have hd : (fuseNext it (some s)).1 = none := by simp [fuseNext, hs]
        simp [pullN, hs, srcNth_dead hd]
      | some p =>
        obtain ⟨a, s'⟩ := p
        have hf : fuseNext it (some s) = (some a, some s') := by
          simp [fuseNext, hs]
        cases j with
        | zero =>
          simp only [pullN, hs]
          simp [srcNth, advanceN, hf]
        | succ j =>
          simp only [pullN, hs]
          have : srcNth it (j + 1) (some s) = srcNth it j (some s') := by
            simp [srcNth, advanceN, hf]
          rw [this]
          simpa using ih (some s') j (by omega)

/-! ### `nthNext` lemmas -/

theorem nthNext_queue (it : Iterator σ α) (n : Nat) (L : Lookahead σ α)
    (h : n < L.queue.length) : nthNext it n L = L.queue[n]? := by
  induction n generalizing L with
  | zero =>
    obtain ⟨is, q, c⟩ := L
    cases q with
    | nil => simp at h
    | cons x xs => simp [nthNext, Lookahead.next]
  | succ n ih =>
    obtain ⟨is, q, c⟩ := L
    cases q with
    | nil => simp at h
    | cons x xs =>
      simp only [nthNext, Lookahead.next]
      rw [ih ⟨is, xs, c⟩ (by simpa using h)]
      simp

theorem nthNext_skip_queue (it : Iterator σ α) (j : Nat) (is : Option σ)
    (q : List α) (c : Nat) :
    nthNext it (q.length + j) ⟨is, q, c⟩ = nthNext it j ⟨is, [], c⟩ := by
  induction q with
  | nil => simp
  | cons x xs ih =>
    have : xs.length + 1 + j = (xs.length + j) + 1 := by omega
    simp only [List.length_cons, this, nthNext, Lookahead.next]
    exact ih

theorem nthNext_empty (it : Iterator σ α) (j : Nat) (is : Option σ) (c : Nat) :
    nthNext it j ⟨is, [], c⟩ = srcNth it j is := by
  induction j generalizing is with
  | zero => rfl
  | succ j ih =>
    simp only [nthNext, Lookahead.next]
    rw [ih]
    simp [srcNth, advanceN]

/-! ### Simulation: the adapter is transparent over the fused source -/

/-- `L` presents, via `next`, exactly the continuation of the stream of the
reference fused state `is0`: its queue holds the next `|queue|` outputs and
its own fused state continues from there. -/
def Sim (it : Iterator σ α) (L : Lookahead σ α) (is0 : Option σ) : Prop :=
  ∀ k, sourceOutN it (L.queue.length + k) is0
    = L.queue.map some ++ sourceOutN it k L.iter

theorem sim_new (it : Iterator σ α) (s : σ) :
    Sim it (Lookahead.new it s) (some s) := by
  intro k
  simp [Lookahead.new]

theorem sim_next {it : Iterator σ α} {L : Lookahead σ α} {is0 : Option σ}
    (h : Sim it L is0) :
    (Lookahead.next it L).1 = (fuseNext it is0).1 ∧
      Sim it (Lookahead.next it L).2 (fuseNext it is0).2 := by
  obtain ⟨is, q, c⟩ := L
  cases q with
  | nil =>
    have hk : ∀ k, sourceOutN it k is0 = sourceOutN it k is := by
      intro k
      simpa using h k
    have hhead : (fuseNext it is0).1 = (fuseNext it is).1 := by
      simpa [sourceOutN] using hk 1
    have htail : ∀ k, sourceOutN it k (fuseNext it is0).2
        = sourceOutN it k (fuseNext it is).2 := by
      intro k
      have h2 := hk (k + 1)
      simp only [sourceOutN, hhead, List.cons.injEq, true_and] at h2
      exact h2
    constructor
    · simp [Lookahead.next, hhead]
    · intro k
      simpa [Lookahead.next] using htail k
  | cons x xs =>
    have key : ∀ k, (fuseNext it is0).1 :: sourceOutN it (xs.length + k) (fuseNext it is0).2
        = some x :: (xs.map some ++ sourceOutN it k is) := by
      intro k
      have h0 := h k
      simp only [List.length_cons] at h0
      have : xs.length + 1 + k = (xs.length + k) + 1 := by omega
      rw [this] at h0
      simpa [sourceOutN] using h0
    constructor
    · have := key 0
      simp only [List.cons.injEq] at this
      simp [Lookahead.next, this.1]
    · intro k
      have := key k
      simp only [List.cons.injEq] at this
      simpa [Lookahead.next] using this.2

theorem sim_peek {it : Iterator σ α} {L : Lookahead σ α} {is0 : Option σ}
    (h : Sim it L is0) (n : Nat) :
    Sim it (Lookahead.lookahead it L n).2 is0 := by
  by_cases hn : L.queue.length ≤ n
  · intro k
    simp only [Lookahead.lookahead, if_pos hn]
    set kk := n - L.queue.length + 1 with hkk
    set r := pullN it kk L.iter with hr
    simp only [List.length_append, List.map_append]
    have harith : L.queue.length + r.1.length + k
        = L.queue.length + (r.1.length + k) := by omega
    rw [harith, h (r.1.length + k)]
    rw [List.append_assoc]
    congr 1
    exact pullN_stream it kk L.iter k
  · intro k
    simp only [Lookahead.lookahead, if_neg hn]
    exact h k

theorem run_sim {it : Iterator σ α} (ops : List Op) (L : Lookahead σ α)
    (is0 : Option σ) (h : Sim it L is0) :
    runConsumes it ops L = sourceOutN it (countConsumes ops) is0 := by
  induction ops generalizing L is0 with
  | nil => rfl
  | cons op ops ih =>
    cases op with
    | consume =>
      obtain ⟨h1, h2⟩ := sim_next h
      simp only [runConsumes, countConsumes, sourceOutN]
      exact congrArg₂ (· :: ·) h1 (ih _ _ h2)
    | peek n =>
      simp only [runConsumes, countConsumes]
      exact ih _ _ (sim_peek h n)

/-- C1: Transparency invariant: starting from a fresh adapter over any
source, the outputs of the `next` (consume) calls in any interleaved
sequence of `lookahead` and `next` calls are exactly, element for element
and in order, the outputs the fused source alone would have produced — the
adapter never reorders, drops, duplicates, or injects items. -/
theorem C1_transparency (it : Iterator σ α) (s : σ) (ops : List Op) :
    runConsumes it ops (Lookahead.new it s)
      = sourceOutN it (countConsumes ops) (some s) :=
  run_sim ops _ _ (sim_new it s)

/-- C2: Peek/consume consistency: for every adapter state and every `n`,
`lookahead n` returns exactly the value of the `(n+1)`-th `next` call from
the current state, and does so without consuming: after the peek, the
`(n+1)`-th `next` call still returns that same value (`none` exactly when
the peek returned `none`). -/
theorem C2_peek_consume (it : Iterator σ α) (L : Lookahead σ α) (n : Nat) :
    (Lookahead.lookahead it L n).1 = nthNext it n L ∧
      nthNext it n (Lookahead.lookahead it L n).2
        = (Lookahead.lookahead it L n).1 := by
  obtain ⟨is, q, c⟩ := L
  by_cases hn : q.length ≤ n
  · obtain ⟨j, rfl⟩ : ∃ j, n = q.length + j := ⟨n - q.length, by omega⟩
    have hk : q.length + j - q.length + 1 = j + 1 := by omega
    have hq : (Lookahead.lookahead it ⟨is, q, c⟩ (q.length + j))
        = ((q ++ (pullN it (j + 1) is).1)[q.length + j]?,
           ⟨(pullN it (j + 1) is).2.1, q ++ (pullN it (j + 1) is).1, c⟩) := by
      simp only [Lookahead.lookahead, hk, Nat.le_add_right, if_pos]
    have hval : (q ++ (pullN it (j + 1) is).1)[q.length + j]?
        = srcNth it j is := by
      rw [List.getElem?_append_right (Nat.le_add_right _ _)]
      simp only [Nat.add_sub_cancel_left]
      exact pullN_get it (j + 1) is j (by omega)
    have hnth : nthNext it (q.length + j) ⟨is, q, c⟩ = srcNth it j is := by
      rw [nthNext_skip_queue, nthNext_empty]
    constructor
    · rw [hq, hval, hnth]
    · rw [hq]
      rcases pullN_length_cases it (j + 1) is with hfull | ⟨hlt, hnone⟩
      · have hlen : q.length + j < (q ++ (pullN it (j + 1) is).1).length := by
          simp only [List.length_append, hfull]
          omega
        exact nthNext_queue it _ _ hlen
      · have hlen : (q ++ (pullN it (j + 1) is).1).length ≤ q.length + j := by
          simp only [List.length_append]
          omega
        rw [List.getElem?_eq_none hlen]
        obtain ⟨i, hi⟩ : ∃ i,
            q.length + j = (q ++ (pullN it (j + 1) is).1).length + i :=
          ⟨q.length + j - (q ++ (pullN it (j + 1) is).1).length, by omega⟩
        rw [hi]
        have hskip := nthNext_skip_queue it i
          (pullN it (j + 1) is).2.1 (q ++ (pullN it (j + 1) is).1) c
        rw [hskip, nthNext_empty, hnone, srcNth_none]
  · have hq : (Lookahead.lookahead it ⟨is, q, c⟩ n) = (q[n]?, ⟨is, q, c⟩) := by
      simp [Lookahead.lookahead, hn]
    have hnq := nthNext_queue it n ⟨is, q, c⟩ (by simpa using Nat.lt_of_not_le hn)
    rw [hq]
    constructor
    · simpa using hnq.symm
    · simpa using hnq

theorem nextPulls_le_one (L : Lookahead σ α) : nextPulls L ≤ 1 := by
  obtain ⟨is, q, c⟩ := L
  cases q <;> cases is <;> simp [nextPulls]

/-- C3: Peek-ahead algorithm and pull bound: when `n ≥ enqueued`,
`lookahead n` appends the up-to-`n - enqueued + 1` items pulled from the
source to the buffer's tail — exactly `n - enqueued + 1` items unless the
source exhausts first (and then the fuse is spent) — and answers with the
buffer element at index `n`, which is `none` exactly when the buffer is
still no longer than `n`; when `n < enqueued` nothing is pulled and the
state is unchanged.  A `lookahead n` call makes at most `n - enqueued + 1`
pulls, and a `next` call at most one. -/
theorem C3_pull_bound (it : Iterator σ α) (L : Lookahead σ α) (n : Nat) :
    (L.queue.length ≤ n →
      (Lookahead.lookahead it L n).2.queue
          = L.queue ++ (pullN it (n - L.queue.length + 1) L.iter).1 ∧
      ((pullN it (n - L.queue.length + 1) L.iter).1.length
            = n - L.queue.length + 1 ∨
        ((pullN it (n - L.queue.length + 1) L.iter).1.length
              < n - L.queue.length + 1 ∧
          (pullN it (n - L.queue.length + 1) L.iter).2.1 = none)) ∧
      (Lookahead.lookahead it L n).1
          = (Lookahead.lookahead it L n).2.queue[n]? ∧
      ((Lookahead.lookahead it L n).1 = none ↔
        (Lookahead.lookahead it L n).2.queue.length ≤ n)) ∧
    (n < L.queue.length →
      Lookahead.lookahead it L n = (L.queue[n]?, L) ∧
      lookaheadPulls it L n = 0) ∧
    lookaheadPulls it L n ≤ n - L.queue.length + 1 ∧
    nextPulls L ≤ 1 := by
  obtain ⟨is, q, c⟩ := L
  by_cases hn : q.length ≤ n
  · have hq : (Lookahead.lookahead it ⟨is, q, c⟩ n)
        = ((q ++ (pullN it (n - q.length + 1) is).1)[n]?,
           ⟨(pullN it (n - q.length + 1) is).2.1,
            q ++ (pullN it (n - q.length + 1) is).1, c⟩) := by
      simp [Lookahead.lookahead, hn]
    refine ⟨fun _ => ⟨by rw [hq], pullN_length_cases it _ is, by rw [hq],
        ?_⟩, fun h => absurd hn (Nat.not_le.mpr h), ?_, nextPulls_le_one _⟩
    · rw [hq]
      exact List.getElem?_eq_none_iff
    · simp only [lookaheadPulls, if_pos hn]
      exact pullN_calls_le it _ is
  · have hq : (Lookahead.lookahead it ⟨is, q, c⟩ n) = (q[n]?, ⟨is, q, c⟩) := by
      simp [Lookahead.lookahead, hn]
    refine ⟨fun h => absurd h hn, fun _ => ⟨hq, ?_⟩, ?_, nextPulls_le_one _⟩
    · simp only [lookaheadPulls, if_neg hn]
    · simp only [lookaheadPulls, if_neg hn]
      omega

/-- C3 witness: concrete instances of both branches of the contract, on the
source `[1, 2, 3]`.  With one item buffered and `n = 2`, two items are
pulled; with one item buffered and `n = 0`, nothing is pulled. -/
theorem C3_witness :
    (Lookahead.lookahead listIt ⟨some [1, 2, 3], [9], 0⟩ 2).2.queue
        = [9] ++ (pullN listIt 2 (some [1, 2, 3])).1 ∧
    lookaheadPulls listIt ⟨some [1, 2, 3], [9], 0⟩ 2 ≤ 2 ∧
    Lookahead.lookahead listIt ⟨some [1, 2, 3], [9], 0⟩ 0
        = (some 9, ⟨some [1, 2, 3], [9], 0⟩) ∧
    lookaheadPulls listIt ⟨some [1, 2, 3], [9], 0⟩ 0 = 0 :=
  ⟨((C3_pull_bound listIt ⟨some [1, 2, 3], [9], 0⟩ 2).1 (by decide)).1,
   (C3_pull_bound listIt ⟨some [1, 2, 3], [9], 0⟩ 2).2.2.1,
   ((C3_pull_bound listIt ⟨some [1, 2, 3], [9], 0⟩ 0).2.1 (by decide)).1,
   ((C3_pull_bound listIt ⟨some [1, 2, 3], [9], 0⟩ 0).2.1 (by decide)).2⟩

/-- C4: Consume contract: `next` pops and returns the buffer's front item
when the buffer is non-empty; otherwise it pulls one fresh item directly
from the (fused) source; and it returns `none` exactly when the buffer is
empty and the source is exhausted. -/
theorem C4_next_contract (it : Iterator σ α) (L : Lookahead σ α) :
    (∀ x xs, L.queue = x :: xs →
        Lookahead.next it L = (some x, ⟨L.iter, xs, L.cap⟩)) ∧
    (L.queue = [] →
        Lookahead.next it L
          = ((fuseNext it L.iter).1, ⟨(fuseNext it L.iter).2, [], L.cap⟩)) ∧
    ((Lookahead.next it L).1 = none ↔ Exhausted it L) := by
  obtain ⟨is, q, c⟩ := L
  cases q with
  | nil =>
    refine ⟨fun x xs h => by simp at h, fun _ => rfl, ?_⟩
    simp [Lookahead.next, Exhausted]
  | cons x xs =>
    refine ⟨fun y ys h => ?_, fun h => by simp at h, ?_⟩
    · simp only [List.cons.injEq] at h
      obtain ⟨rfl, rfl⟩ := h
      rfl
    · simp [Lookahead.next, Exhausted]

/-- C4 witness: both branches on concrete states: popping the front of a
non-empty buffer, and pulling from an exhausted source with an empty
buffer. -/
theorem C4_witness :
    Lookahead.next listIt ⟨some [2], [5, 6], 0⟩
        = (some 5, ⟨some [2], [6], 0⟩) ∧
    Lookahead.next listIt ⟨none, [], 3⟩ = (none, ⟨none, [], 3⟩) ∧
    ((Lookahead.next listIt ⟨none, [], 3⟩).1 = none ↔
      Exhausted listIt ⟨none, [], 3⟩) :=
  ⟨(C4_next_contract listIt ⟨some [2], [5, 6], 0⟩).1 5 [6] rfl,
   ((C4_next_contract listIt ⟨none, [], 3⟩).2.1 rfl).trans (by decide),
   (C4_next_contract listIt ⟨none, [], 3⟩).2.2⟩

theorem peeks_dead (it : Iterator σ α) (ns : List Nat) (L : Lookahead σ α)
    (h : L.iter = none) : peeks it ns L = (L, 0) := by
  induction ns generalizing L with
  | nil => rfl
  | cons n ns ih =>
    obtain ⟨is, q, c⟩ := L
    have h' : is = none := h
    subst h'
    have hL' : (Lookahead.lookahead it ⟨none, q, c⟩ n).2 = ⟨none, q, c⟩ := by
      by_cases hn : q.length ≤ n
      · simp [Lookahead.lookahead, hn, pullN_none]
      · simp [Lookahead.lookahead, hn]
    have hp : lookaheadPulls it ⟨none, q, c⟩ n = 0 := by
      by_cases hn : q.length ≤ n
      · simp [lookaheadPulls, hn, pullN_none]
      · simp [lookaheadPulls, hn]
    simp [peeks, hL', hp, ih ⟨none, q, c⟩ rfl]

theorem peeks_bound (it : Iterator σ α) (ns : List Nat) (L : Lookahead σ α) :
    (peeks it ns L).2 + L.queue.length ≤ max (maxPeek ns) L.queue.length := by
  induction ns generalizing L with
  | nil => simp [peeks, maxPeek]
  | cons n ns ih =>
    obtain ⟨is, q, c⟩ := L
    by_cases hn : q.length ≤ n
    · cases is with
      | none =>
        have hL' : (Lookahead.lookahead it ⟨none, q, c⟩ n).2 = ⟨none, q, c⟩ := by
          simp [Lookahead.lookahead, hn, pullN_none]
        have hp : lookaheadPulls it ⟨none, q, c⟩ n = 0 := by
          simp [lookaheadPulls, hn, pullN_none]
        have hdead := peeks_dead it ns ⟨none, q, c⟩ rfl
        simp only [peeks, hL', hp, hdead, maxPeek]
        simp only [Nat.zero_add]
        omega
      | some s =>
        have hL' : (Lookahead.lookahead it ⟨some s, q, c⟩ n).2
            = ⟨(pullN it (n - q.length + 1) (some s)).2.1,
               q ++ (pullN it (n - q.length + 1) (some s)).1, c⟩ := by
          simp [Lookahead.lookahead, hn]
        have hp : lookaheadPulls it ⟨some s, q, c⟩ n
            = (pullN it (n - q.length + 1) (some s)).2.2 := by
          simp [lookaheadPulls, hn]
        rcases pullN_length_cases it (n - q.length + 1) (some s) with
          hfull | ⟨hlt, hnone⟩
        · have hcalls := pullN_calls_le it (n - q.length + 1) (some s)
          have ihh := ih ⟨(pullN it (n - q.length + 1) (some s)).2.1,
            q ++ (pullN it (n - q.length + 1) (some s)).1, c⟩
          simp only [peeks, hL', hp, maxPeek]
          simp only [List.length_append] at ihh ⊢
          omega
        · have hrec := peeks_dead it ns
            ⟨(pullN it (n - q.length + 1) (some s)).2.1,
             q ++ (pullN it (n - q.length + 1) (some s)).1, c⟩ hnone
          have hcalls := pullN_calls_le_len it (n - q.length + 1) (some s)
          simp only [peeks, hL', hp, hrec, maxPeek]
          simp
          omega
    · have hL' : (Lookahead.lookahead it ⟨is, q, c⟩ n).2 = ⟨is, q, c⟩ := by
        simp [Lookahead.lookahead, hn]
      have hp : lookaheadPulls it ⟨is, q, c⟩ n = 0 := by
        simp [lookaheadPulls, hn]
      have ihh := ih ⟨is, q, c⟩
      simp only [peeks, hL', hp, maxPeek] at ihh ⊢
      omega

/-- C5: Peek idempotence: two consecutive `lookahead n` calls with no
intervening `next` return equal values, leave the state where the first
call left it, and the second call makes no pulls from the source; and
across any sequence of peeks with no intervening consume, the number of
inner-iterator pulls is at most one per distinct buffered position ever
peeked (positions `0 .. max n` not already buffered). -/
theorem C5_idempotent (it : Iterator σ α) (L : Lookahead σ α) (n : Nat)
    (ns : List Nat) :
    ((Lookahead.lookahead it (Lookahead.lookahead it L n).2 n).1
        = (Lookahead.lookahead it L n).1 ∧
      (Lookahead.lookahead it (Lookahead.lookahead it L n).2 n).2
        = (Lookahead.lookahead it L n).2 ∧
      lookaheadPulls it (Lookahead.lookahead it L n).2 n = 0) ∧
    (peeks it ns L).2 + L.queue.length ≤ max (maxPeek ns) L.queue.length := by
  refine ⟨?_, peeks_bound it ns L⟩
  obtain ⟨is, q, c⟩ := L
  by_cases hn : q.length ≤ n
  · have hq : (Lookahead.lookahead it ⟨is, q, c⟩ n)
        = ((q ++ (pullN it (n - q.length + 1) is).1)[n]?,
           ⟨(pullN it (n - q.length + 1) is).2.1,
            q ++ (pullN it (n - q.length + 1) is).1, c⟩) := by
      simp [Lookahead.lookahead, hn]
    rcases pullN_length_cases it (n - q.length + 1) is with hfull | ⟨hlt, hnone⟩
    · have hlen : ¬(q.length + (pullN it (n - q.length + 1) is).1.length ≤ n) := by
        omega
      have h2 : Lookahead.lookahead it
            ⟨(pullN it (n - q.length + 1) is).2.1,
             q ++ (pullN it (n - q.length + 1) is).1, c⟩ n
          = ((q ++ (pullN it (n - q.length + 1) is).1)[n]?,
             ⟨(pullN it (n - q.length + 1) is).2.1,
              q ++ (pullN it (n - q.length + 1) is).1, c⟩) := by
        simp [Lookahead.lookahead, hlen]
      have h3 : lookaheadPulls it
            ⟨(pullN it (n - q.length + 1) is).2.1,
             q ++ (pullN it (n - q.length + 1) is).1, c⟩ n = 0 := by
        simp [lookaheadPulls, hlen]
      refine ⟨by rw [hq, h2], by rw [hq, h2], by rw [hq]; exact h3⟩
    · have hlen : q.length + (pullN it (n - q.length + 1) is).1.length ≤ n := by
        omega
      have h2 : Lookahead.lookahead it
            ⟨none, q ++ (pullN it (n - q.length + 1) is).1, c⟩ n
          = ((q ++ (pullN it (n - q.length + 1) is).1)[n]?,
             ⟨none, q ++ (pullN it (n - q.length + 1) is).1, c⟩) := by
        simp [Lookahead.lookahead, hlen, pullN_none]
      have h3 : lookaheadPulls it
            ⟨none, q ++ (pullN it (n - q.length + 1) is).1, c⟩ n = 0 := by
        simp [lookaheadPulls, hlen, pullN_none]
      refine ⟨by rw [hq, hnone, h2], by rw [hq, hnone, h2], by rw [hq, hnone]; exact h3⟩
  · have hq : (Lookahead.lookahead it ⟨is, q, c⟩ n) = (q[n]?, ⟨is, q, c⟩) := by
      simp [Lookahead.lookahead, hn]
    have h3 : lookaheadPulls it ⟨is, q, c⟩ n = 0 := by
      simp [lookaheadPulls, hn]
    exact ⟨by rw [hq, hq], by rw [hq, hq], by rw [hq]; exact h3⟩

theorem exhausted_next {it : Iterator σ α} {L : Lookahead σ α}
    (h : Exhausted it L) :
    Lookahead.next it L = (none, ⟨none, [], L.cap⟩) := by
  obtain ⟨is, q, c⟩ := L
  obtain ⟨hq, hi⟩ := h
  have hq' : q = [] := hq
  subst hq'
  have hfe := fuseNext_fst_none hi
  simp [Lookahead.next, hfe]

theorem exhausted_peek {it : Iterator σ α} {L : Lookahead σ α}
    (h : Exhausted it L) (n : Nat) :
    Lookahead.lookahead it L n = (none, ⟨none, [], L.cap⟩) := by
  obtain ⟨is, q, c⟩ := L
  obtain ⟨hq, hi⟩ := h
  have hq' : q = [] := hq
  subst hq'
  cases is with
  | none => simp [Lookahead.lookahead, pullN_none]
  | some s =>
    have hs : it.next s = none := by
      cases hns : it.next s with
      | none => rfl
      | some p =>
        obtain ⟨a, s'⟩ := p
        simp [fuseNext, hns] at hi
    simp [Lookahead.lookahead, pullN, hs]

/-- C6: Permanent exhaustion: once the buffer is empty and the source is
exhausted, every subsequent call — `next` or `lookahead n` for any `n`, in
any order, forever — returns `none`. -/
theorem C6_exhaustion (it : Iterator σ α) (L : Lookahead σ α) (ops : List Op)
    (h : Exhausted it L) : runAll it ops L = ops.map (fun _ => none) := by
  induction ops generalizing L with
  | nil => rfl
  | cons op ops ih =>
    have hex : Exhausted it (⟨none, [], L.cap⟩ : Lookahead σ α) :=
      ⟨rfl, by simp [fuseNext]⟩
    cases op with
    | consume =>
      simp only [runAll, exhausted_next h, List.map_cons]
      exact congrArg (List.cons none) (ih ⟨none, [], L.cap⟩ hex)
    | peek n =>
      simp only [runAll, exhausted_peek h n, List.map_cons]
      exact congrArg (List.cons none) (ih ⟨none, [], L.cap⟩ hex)

/-- C6 witness: an exhausted adapter answers `none` to a concrete mixed
sequence of consume and peek calls. -/
theorem C6_witness :
    Exhausted listIt ⟨none, [], 0⟩ ∧
    runAll listIt [Op.consume, Op.peek 5, Op.consume] ⟨none, [], 0⟩
      = [none, none, none] :=
  ⟨by decide,
   (C6_exhaustion listIt ⟨none, [], 0⟩ [Op.consume, Op.peek 5, Op.consume]
      (by decide)).trans (by decide)⟩

theorem exact_drain (it : Iterator σ α) (len : σ → Nat)
    (h2 : ∀ s, it.next s = none ↔ len s = 0)
    (h3 : ∀ s a s', it.next s = some (a, s') → len s = len s' + 1) :
    ∀ n (L : Lookahead σ α), L.queue.length + optLen len L.iter = n →
      (∀ o ∈ outsN it n L, o.isSome) ∧ nthNext it n L = none := by
  intro n
  induction n with
  | zero =>
    intro L hL
    obtain ⟨is, q, c⟩ := L
    have hq : q = [] := by
      cases q with
      | nil => rfl
      | cons x xs => simp at hL
    subst hq
    refine ⟨by intro o ho; simp [outsN] at ho, ?_⟩
    cases is with
    | none => simp [nthNext, Lookahead.next, fuseNext]
    | some s =>
      have hlen : len s = 0 := by simpa [optLen] using hL
      have hns : it.next s = none := (h2 s).mpr hlen
      simp [nthNext, Lookahead.next, fuseNext, hns]
  | succ n ih =>
    intro L hL
    obtain ⟨is, q, c⟩ := L
    cases q with
    | cons x xs =>
      have hrec := ih ⟨is, xs, c⟩ (by simp at hL ⊢; omega)
      constructor
      · intro o ho
        simp only [outsN, Lookahead.next, List.mem_cons] at ho
        rcases ho with rfl | ho
        · simp
        · exact hrec.1 o ho
      · simp only [nthNext, Lookahead.next]
        exact hrec.2
    | nil =>
      cases is with
      | none => simp [optLen] at hL
      | some s =>
        have hlen : len s = n + 1 := by simpa [optLen] using hL
        cases hns : it.next s with
        | none =>
          have := (h2 s).mp hns
          omega
        | some p =>
          obtain ⟨a, s'⟩ := p
          have hs' : len s' = n := by
            have := h3 s a s' hns
            omega
          have hnext : Lookahead.next it ⟨some s, [], c⟩
              = (some a, ⟨some s', [], c⟩) := by
            simp [Lookahead.next, fuseNext, hns]
          have hrec := ih ⟨some s', [], c⟩ (by simp [optLen, hs'])
          constructor
          · intro o ho
            simp only [outsN, hnext, List.mem_cons] at ho
            rcases ho with rfl | ho
            · simp
            · exact hrec.1 o ho
          · simp only [nthNext, hnext]
            exact hrec.2

/-- C7: Remaining-count estimate: `size_hint` always equals the fused
source's current `size_hint` plus the buffer length, component-wise; and
when the source honestly reports an exact count (an `ExactSizeIterator`:
`size_hint` is `(len, some len)` where `len` counts the remaining items),
the adapter's bounds are exactly the number of items still obtainable via
`next`: that many `next` calls all yield items and the one after yields
`none`. -/
theorem C7_size_hint (it : Iterator σ α) (L : Lookahead σ α) :
    Lookahead.size_hint it L
        = ((fuseSizeHint it L.iter).1 + L.queue.length,
           (fuseSizeHint it L.iter).2.map (fun m => m + L.queue.length)) ∧
    ∀ len : σ → Nat,
      (∀ s, it.size_hint s = (len s, some (len s))) →
      (∀ s, it.next s = none ↔ len s = 0) →
      (∀ s a s', it.next s = some (a, s') → len s = len s' + 1) →
      Lookahead.size_hint it L
          = (optLen len L.iter + L.queue.length,
             some (optLen len L.iter + L.queue.length)) ∧
      (∀ o ∈ outsN it (L.queue.length + optLen len L.iter) L, o.isSome) ∧
      nthNext it (L.queue.length + optLen len L.iter) L = none := by
  refine ⟨rfl, fun len h1 h2 h3 => ⟨?_, (exact_drain it len h2 h3 _ L rfl).1,
    (exact_drain it len h2 h3 _ L rfl).2⟩⟩
  cases his : L.iter with
  | none => simp [Lookahead.size_hint, fuseSizeHint, his, optLen]
  | some s => simp [Lookahead.size_hint, fuseSizeHint, his, optLen, h1 s]

/-- C7 witness: over the exact-size source `[7, 8]` with one item already
buffered, the adapter reports exactly 3 remaining and the 4th `next` call
returns `none`. -/
theorem C7_witness :
    Lookahead.size_hint listIt ⟨some [7, 8], [5], 0⟩ = (3, some 3) ∧
    nthNext listIt 3 ⟨some [7, 8], [5], 0⟩ = none := by
  have h := (C7_size_hint listIt ⟨some [7, 8], [5], 0⟩).2 List.length
    (fun s => rfl)
    (fun s => by cases s <;> simp [listIt])
    (fun s a s' hns => by
      cases s with
      | nil => exact absurd hns (by simp [listIt])
      | cons b l =>
        have hbl : b = a ∧ l = s' := by simpa [listIt] using hns
        obtain ⟨rfl, rfl⟩ := hbl
        simp)
  exact ⟨h.1.trans (by decide), h.2.2⟩

/-- C8 counterexample: the claim "`lookahead n` never fails, including at
`n = usize::MAX` with an empty buffer" is false for the overflow-checked
(debug-profile) semantics of the source's `n - enqueued + 1`: at
`n = usize::MAX` with an empty buffer the addition overflows `usize`, which
panics under overflow checks (modelled by `none`). -/
theorem C8_counterexample :
    Lookahead.lookaheadChecked listIt ⟨some [1], [], 0⟩ ((2 : Nat) ^ 64 - 1)
      = none := by
  decide

/-- C8 (amended): no operation fails for valid inputs as long as the
internal computation `n - enqueued + 1` does not exceed `usize::MAX`
(in particular for every `n < usize::MAX`, and for `n = usize::MAX` with a
non-empty buffer), and then the machine-arithmetic call agrees with the
idealized one; in the remaining case (`n = usize::MAX`, empty buffer) the
wrapping (release-profile) semantics still pulls nothing and returns
`none` with the state unchanged, while the checked (debug-profile)
semantics panics. -/
theorem C8_no_overflow_no_panic (it : Iterator σ α) (L : Lookahead σ α)
    (n : Nat) :
    (n - L.queue.length + 1 ≤ USIZE_MAX →
      Lookahead.lookaheadChecked it L n
          = some (Lookahead.lookahead it L n) ∧
      Lookahead.lookaheadWrap it L n = Lookahead.lookahead it L n) ∧
    (L.queue = [] →
      (Lookahead.lookaheadWrap it L USIZE_MAX).1 = none ∧
      (Lookahead.lookaheadWrap it L USIZE_MAX).2 = L) := by
  obtain ⟨is, q, c⟩ := L
  constructor
  · intro h
    by_cases hn : q.length ≤ n
    · have hno : ¬(USIZE_MAX < n - q.length + 1) := Nat.not_lt.mpr h
      have hmod : (n - q.length + 1) % (USIZE_MAX + 1) = n - q.length + 1 :=
        Nat.mod_eq_of_lt (by omega)
      constructor
      · simp [Lookahead.lookaheadChecked, Lookahead.lookahead, hn, hno]
      · simp [Lookahead.lookaheadWrap, Lookahead.lookahead, hn, hmod]
    · constructor
      · simp [Lookahead.lookaheadChecked, Lookahead.lookahead, hn]
      · simp [Lookahead.lookaheadWrap, Lookahead.lookahead, hn]
  · intro h
    have hq : q = [] := h
    subst hq
    have hmod : (USIZE_MAX - (0 : Nat) + 1) % (USIZE_MAX + 1) = 0 := by
      simp [Nat.mod_self]
    constructor
    · simp [Lookahead.lookaheadWrap, hmod, pullN]
    · simp [Lookahead.lookaheadWrap, hmod, pullN]

/-- C8 witness: a non-overflowing call agrees with the idealized semantics,
and at the overflow point the wrapping semantics returns `none`. -/
theorem C8_witness :
    Lookahead.lookaheadChecked listIt (Lookahead.new listIt [1, 2]) 1
        = some (Lookahead.lookahead listIt (Lookahead.new listIt [1, 2]) 1) ∧
    (Lookahead.lookaheadWrap listIt ⟨some [1, 2], [], 0⟩ USIZE_MAX).1
        = none :=
  ⟨((C8_no_overflow_no_panic listIt (Lookahead.new listIt [1, 2]) 1).1
      (by decide)).1,
   ((C8_no_overflow_no_panic listIt ⟨some [1, 2], [], 0⟩ 0).2 rfl).1⟩

theorem next_cap (it : Iterator σ α) (is : Option σ) (q : List α)
    (c₁ c₂ : Nat) :
    (Lookahead.next it ⟨is, q, c₁⟩).1 = (Lookahead.next it ⟨is, q, c₂⟩).1 ∧
    (Lookahead.next it ⟨is, q, c₁⟩).2.iter
        = (Lookahead.next it ⟨is, q, c₂⟩).2.iter ∧
    (Lookahead.next it ⟨is, q, c₁⟩).2.queue
        = (Lookahead.next it ⟨is, q, c₂⟩).2.queue := by
  cases q <;> simp [Lookahead.next]

theorem lookahead_cap (it : Iterator σ α) (is : Option σ) (q : List α)
    (c₁ c₂ : Nat) (n : Nat) :
    (Lookahead.lookahead it ⟨is, q, c₁⟩ n).1
        = (Lookahead.lookahead it ⟨is, q, c₂⟩ n).1 ∧
    (Lookahead.lookahead it ⟨is, q, c₁⟩ n).2.iter
        = (Lookahead.lookahead it ⟨is, q, c₂⟩ n).2.iter ∧
    (Lookahead.lookahead it ⟨is, q, c₁⟩ n).2.queue
        = (Lookahead.lookahead it ⟨is, q, c₂⟩ n).2.queue := by
  by_cases hn : q.length ≤ n <;> simp [Lookahead.lookahead, hn]

theorem run_cap_irrelevant (it : Iterator σ α) (ops : List Op) :
    ∀ L₁ L₂ : Lookahead σ α, L₁.iter = L₂.iter → L₁.queue = L₂.queue →
      runAll it ops L₁ = runAll it ops L₂ ∧
      (runState it ops L₁).iter = (runState it ops L₂).iter ∧
      (runState it ops L₁).queue = (runState it ops L₂).queue := by
  induction ops with
  | nil => exact fun L₁ L₂ h1 h2 => ⟨rfl, h1, h2⟩
  | cons op ops ih =>
    intro L₁ L₂ h1 h2
    obtain ⟨is1, q1, c1⟩ := L₁
    obtain ⟨is2, q2, c2⟩ := L₂
    have h1' : is1 = is2 := h1
    have h2' : q1 = q2 := h2
    subst h1'
    subst h2'
    cases op with
    | consume =>
      obtain ⟨e1, e2, e3⟩ := next_cap it is1 q1 c1 c2
      have hr := ih _ _ e2 e3
      simp only [runAll, runState]
      exact ⟨by rw [e1, hr.1], hr.2.1, hr.2.2⟩
    | peek n =>
      obtain ⟨e1, e2, e3⟩ := lookahead_cap it is1 q1 c1 c2 n
      have hr := ih _ _ e2 e3
      simp only [runAll, runState]
      exact ⟨by rw [e1, hr.1], hr.2.1, hr.2.2⟩

/-- C9: The capacity hint is behaviourally inert: for every source, every
capacity, and every sequence of `lookahead`/`next` calls, an adapter built
with `with_capacity` produces exactly the same outputs as one built with
`new`, and its buffer contents and source state stay identical — no
failure or truncation ever arises from exceeding the capacity. -/
theorem C9_capacity_inert (it : Iterator σ α) (s : σ) (capacity : Nat)
    (ops : List Op) :
    runAll it ops (Lookahead.with_capacity it s capacity)
        = runAll it ops (Lookahead.new it s) ∧
    (runState it ops (Lookahead.with_capacity it s capacity)).iter
        = (runState it ops (Lookahead.new it s)).iter ∧
    (runState it ops (Lookahead.with_capacity it s capacity)).queue
        = (runState it ops (Lookahead.new it s)).queue :=
  run_cap_irrelevant it ops _ _ rfl rfl

/-- C10: The two construction paths coincide: the free function `lookahead`
and `Lookahead::new` build identical adapters (same fused source, empty
buffer), so every subsequent sequence of calls yields identical results. -/
theorem C10_constructors_coincide (it : Iterator σ α) (s : σ) :
    lookahead it s = Lookahead.new it s ∧
    ∀ ops : List Op,
      runAll it ops (lookahead it s) = runAll it ops (Lookahead.new it s) :=
  ⟨rfl, fun _ => rfl⟩
